import Mathlib

/-!
Shallow embedding of `cathi_score.py` (bentonml/cathi).

The program scores DNA sequences (strings over the uppercase alphabet A,C,G,T)
for SiRTA-like motif content.  Sequences are modelled as `List Char`.  Python's
arbitrary-precision integers are modelled as `Nat`/`Int`, and the float
penalties and scores as `ℚ` (the penalty arithmetic of the program is plain
addition/multiplication, which is exact).  Float division inside the
window-count formulas is modelled as exact rational division, and `np.nan`
(the value returned by max-mode for an empty window range) as `none` in
`Option ℚ`.

Regular-expression use in the source is small and concrete; each regex is
embedded as an executable scanner with Python's leftmost / greedy /
non-overlapping `finditer` semantics:
  * `GGGG+`                 — search succeeds iff "GGGG" occurs (`contains_gt4_gs`);
  * `((?:GGT){2,}G?)`       — leftmost greedy match (`ggtggSearch`);
  * `GTGGTGGT?$`            — anchored literal with optional trailing T
                              (`$` modelled as end-of-string: input sequences
                              contain no newline);
  * `TT` via `finditer`     — only emptiness and the first start position are
                              used by the program (`firstTT`);
  * `(G[GT]{3,})`           — maximal G/T runs starting at a G (`findMatches`);
  * `re.search(k, sub)`     — `k` consists only of G/T, so it is a literal
                              substring search (`firstOccurIdx`).

Recursive procedures whose recursion is not structural (`test_candidate`,
the finditer scan) are defined with a fuel argument equal to the input length,
so every definition evaluates by kernel reduction; the untruncated unfolding
equations are proved below.
-/

/-- The character list of a literal used by the program: "GGTGG". -/
def ggtggL : List Char := ['G', 'G', 'T', 'G', 'G']

/-- The character list "GTGGTGG" (body of the regex `GTGGTGGT?$`). -/
def gtggtggL : List Char := ['G', 'T', 'G', 'G', 'T', 'G', 'G']

/-- The character list "GGGG" (witness of the regex `GGGG+`). -/
def ggggL : List Char := ['G', 'G', 'G', 'G']

/-- The character list "TT". -/
def ttL : List Char := ['T', 'T']

/-- First index at which `k` occurs in `s` (used for `re.search(k, sub).start()`
with a literal pattern `k`, and to embed plain substring search). -/
def firstOccurIdx (k : List Char) : List Char → Option Nat
  | [] => if k.isPrefixOf [] then some 0 else none
  | a :: rest =>
    if k.isPrefixOf (a :: rest) then some 0
    else (firstOccurIdx k rest).map (· + 1)

/-- `contains_gt4_gs(seq)`: `re.search(r"GGGG+", seq)` succeeds iff "GGGG"
occurs as a substring. -/
def contains_gt4_gs (seq : List Char) : Bool :=
  (firstOccurIdx ggggL seq).isSome

/-- Greedy count of leading repetitions of "GGT" (the `(?:GGT){2,}` part of
the regex, anchored at the head of `s`). -/
def ggtCount : List Char → Nat
  | 'G' :: 'G' :: 'T' :: rest => ggtCount rest + 1
  | _ => 0

/-- "GGT" repeated `k` times. -/
def ggtPow : Nat → List Char
  | 0 => []
  | k + 1 => 'G' :: 'G' :: 'T' :: ggtPow k

/-- Greedy match of `(?:GGT){2,}G?` anchored at the head of `s`: take as many
"GGT" repetitions as possible (at least two), then one more G if present. -/
def matchGGTAt (s : List Char) : Option (List Char) :=
  if 2 ≤ ggtCount s then
    some (s.take (3 * ggtCount s +
      (if (s.drop (3 * ggtCount s)).head? = some 'G' then 1 else 0)))
  else none

/-- `re.search(r"((?:GGT){2,}G?)", seq)`: leftmost match, greedy at the first
position where a match starts. -/
def ggtggSearch : List Char → Option (List Char)
  | [] => none
  | c :: rest =>
    match matchGGTAt (c :: rest) with
    | some m => some m
    | none => ggtggSearch rest

/-- `all_ggtgg(seq)`: true when `seq == 'GGTGG'` or `re.match(r"GTGGTGGT?$", seq)`
succeeds, or else when the leftmost `((?:GGT){2,}G?)` match equals `seq` whole. -/
def all_ggtgg (seq : List Char) : Bool :=
  if seq = ggtggL ∨ seq = gtggtggL ∨ seq = gtggtggL ++ ['T'] then true
  else
    match ggtggSearch seq with
    | some m => decide (m = seq)
    | none => false

/-- Start position of the first "TT" occurrence (`re.finditer(r"TT", c)`:
the program only uses whether the list of matches is empty and the first
start position). -/
def firstTT : List Char → Option Nat
  | [] => none
  | c :: rest =>
    if c = 'T' ∧ rest.head? = some 'T' then some 0
    else (firstTT rest).map (· + 1)

/-- `test_candidate(c)`, with fuel (the recursion of the source is on strictly
shorter strings, so fuel `c.length` suffices; see `test_candidate_eq`). -/
def test_candidate_go : Nat → List Char → List (List Char)
  | 0, _ => []
  | fuel + 1, c =>
    match firstTT c with
    | none =>
      if 4 ≤ c.length then
        if c.head? = some 'T' then test_candidate_go fuel (c.drop 1)
        else if all_ggtgg c then [] else [c]
      else []
    | some p =>
      if 4 < c.length then
        test_candidate_go fuel (c.take (p + 1)) ++ test_candidate_go fuel (c.drop (p + 1))
      else []

/-- `test_candidate(c)`: recursively split a G/T run at internal "TT" breaks
and strip leading T, keeping TT-free pieces of length ≥ 4 that do not start
with T and are not pure GGTGG repeats. -/
def test_candidate (c : List Char) : List (List Char) :=
  test_candidate_go c.length c

/-- Is `ch` one of G/T (the character class `[GT]`)? -/
def isGT (ch : Char) : Bool := ch = 'G' || ch = 'T'

/-- Scan of `re.finditer(r'(G[GT]{3,})', seq)` with fuel: at each position, a
match requires a G followed greedily by at least three G/T characters; the
scan resumes after the end of each (non-overlapping) match. -/
def findMatchesGo : Nat → List Char → Nat → List (Nat × Nat)
  | 0, _, _ => []
  | _ + 1, [], _ => []
  | fuel + 1, ch :: rest, idx =>
    let r := (rest.takeWhile isGT).length
    if ch = 'G' ∧ 3 ≤ r then
      (idx, idx + 1 + r) :: findMatchesGo fuel ((ch :: rest).drop (1 + r)) (idx + 1 + r)
    else
      findMatchesGo fuel rest (idx + 1)

/-- All match spans `(start, end)` of `(G[GT]{3,})` in `seq`, left to right. -/
def findMatches (seq : List Char) : List (Nat × Nat) :=
  findMatchesGo seq.length seq 0

/-- The span recorded for candidate `k` of the match with span `se` and text
`sub`: the whole span when the lengths agree, otherwise the span of the first
occurrence of `k` inside `sub`, translated by `se.1`.  (`firstOccurIdx` never
returns `none` here because `k` is a substring of `sub`; the source would
raise on `None`, the default `0` is dead code.) -/
def posOfKmer (se : Nat × Nat) (sub k : List Char) : Nat × Nat :=
  if se.2 - se.1 = k.length then se
  else
    let off := (firstOccurIdx k sub).getD 0
    (se.1 + off, se.1 + off + k.length)

/-- The body of the per-match loop of `find_tg_kmers`: reject the match whole
if it has four consecutive Gs or is a pure GGTGG repeat, otherwise split it
into candidates, dropping empty strings, and record each candidate's span. -/
def processMatch (seq : List Char) (se : Nat × Nat) : List (List Char) × List (Nat × Nat) :=
  let sub := (seq.drop se.1).take (se.2 - se.1)
  if contains_gt4_gs sub = false ∧ all_ggtgg sub = false then
    let ks := (test_candidate sub).filter (fun k => !k.isEmpty)
    (ks, ks.map (posOfKmer se sub))
  else ([], [])

/-- `find_tg_kmers(seq)`: the loop appends, per match and in order, one entry
to the candidate list and one to the position list. -/
def find_tg_kmers (seq : List Char) : List (List Char) × List (Nat × Nat) :=
  ((findMatches seq).flatMap fun se => (processMatch seq se).1,
   (findMatches seq).flatMap fun se => (processMatch seq se).2)

/-- `score_groups(seq_groups)`: sum of the candidate lengths. -/
def score_groups (seq_groups : List (List Char)) : Nat :=
  (seq_groups.map List.length).sum

/-- Number of (overlapping) occurrences of "GGTGG" in `g`
(`re.findall(r"(GGTGG)", g, overlapped=True)`). -/
def countGGTGG : List Char → Nat
  | [] => 0
  | c :: rest => (if ggtggL.isPrefixOf (c :: rest) then 1 else 0) + countGGTGG rest

/-- Python indexing `s[i]`, including negative indices; out-of-range is `none`
(the source raises there, but every use is guarded in range). -/
def pyIdx (s : List Char) (i : Int) : Option Char :=
  if 0 ≤ i then s[i.toNat]?
  else if 0 ≤ i + s.length then s[(i + s.length).toNat]?
  else none

/-- `calculate_penalty(seq_groups, p, tp, pos, seq)`: GGTGG penalty summed over
the groups, then the flanking-TT penalty summed over the candidate spans. -/
def calculate_penalty (seq_groups : List (List Char)) (p tp : ℚ)
    (pos : List (Nat × Nat)) (seq : List Char) : ℚ :=
  let s1 := seq_groups.foldl (fun acc g => acc + (countGGTGG g : ℚ) * p) 0
  pos.foldl (fun acc se =>
    if se.2 < seq.length then
      if pyIdx seq (se.2 : Int) = some 'T' ∧ pyIdx seq ((se.2 : Int) - 1) = some 'T' then
        acc + tp
      else acc
    else acc) s1

/-- The per-window score computed at lines 138 and 169 of the source:
`score_groups(groups) - calculate_penalty(groups, penalty, tt_penalty, pos, window_seq)`. -/
def windowScore (w : List Char) (p tp : ℚ) : ℚ :=
  (score_groups (find_tg_kmers w).1 : ℚ) -
    calculate_penalty (find_tg_kmers w).1 p tp (find_tg_kmers w).2 w

/-- Python 3 `round` on an exact value: round half to even. -/
def pyRound (q : ℚ) : Int :=
  if q - Int.floor q < 1 / 2 then Int.floor q
  else if 1 / 2 < q - Int.floor q then Int.floor q + 1
  else if Int.floor q % 2 = 0 then Int.floor q else Int.floor q + 1

/-- `calc_max_score_over_windows(seq, penalty, tt_penalty, window, step)`:
`num_windows = round((len(seq)-window)/step + 1)`, then the loop
`for i in range(0, num_windows*step, step)` (empty when `num_windows ≤ 0`,
and requiring `step > 0`); `np.nan` is modelled as `none`. -/
def calc_max_score_over_windows (seq : List Char) (penalty tt_penalty : ℚ)
    (window step : Nat) : Option ℚ :=
  let num_windows : Int := pyRound (((seq.length : ℚ) - window) / step + 1)
  ((List.range num_windows.toNat).map (fun k => k * step)).foldl
    (fun mx i =>
      let score := windowScore ((seq.drop i).take window) penalty tt_penalty
      match mx with
      | none => some score
      | some m => if m < score then some score else some m)
    none

/-- The strand string "+". -/
def plusStrand : String := "+"

/-- `calc_score_over_windows(seq, chrom, start, penalty, tt_penalty, window,
step, strand)`: `num_windows = math.ceil((len(seq)-window)/step + 1)`, one
scored row per window. -/
def calc_score_over_windows (seq : List Char) (chrom : String) (start : Int)
    (penalty tt_penalty : ℚ) (window step : Nat) (strand : String) :
    List (String × Int × Int × ℚ) :=
  let num_windows : Int := Int.ceil (((seq.length : ℚ) - window) / step + 1)
  ((List.range num_windows.toNat).map (fun k => k * step)).map fun i =>
    let w := (seq.drop i).take window
    let seq_len := w.length
    let score := windowScore w penalty tt_penalty
    if strand = plusStrand then (chrom, start + i, start + i + seq_len, score)
    else (chrom, start - i - seq_len, start - i, score)

/-- Full-GGT-repeat shape: `s` is "GGT" repeated (greedily counted) at least
twice, optionally followed by one trailing G and nothing else.  Equivalent to
the existential form, see `isFullGGTRepeat_iff`. -/
def isFullGGTRepeat (s : List Char) : Bool :=
  decide (2 ≤ ggtCount s) &&
    (decide (s.drop (3 * ggtCount s) = []) || decide (s.drop (3 * ggtCount s) = ['G']))

/-- The pure-repeat predicate exactly as claim C4 words it: `s` equals "GGTGG",
or `s` is "GTGGTGGT" optionally followed by one more "T" and nothing else, or
`s` is entirely consumed by "GGT" repeated two or more times optionally
followed by one trailing "G".  (Stated Boolean; the third disjunct is
`isFullGGTRepeat`, whose existential reading is `isFullGGTRepeat_iff`.) -/
def claimPureRepeat (s : List Char) : Bool :=
  decide (s = ggtggL) || decide (s = gtggtggL ++ ['T']) ||
    decide (s = gtggtggL ++ ['T', 'T']) || isFullGGTRepeat s

/-- The flanking-TT condition exactly as claim C7 words it for a candidate span
`se` in window `w`: `se.2 < len w`, `w[se.2] = 'T'` and `w[se.2 - 1] = 'T'`. -/
def flankTT (w : List Char) (se : Nat × Nat) : Bool :=
  decide (se.2 < w.length) && decide (w[se.2]? = some 'T') &&
    decide (w[se.2 - 1]? = some 'T')

/-- A chromosome name used by the concrete witnesses. -/
def cName : String := "c"

/-! ### Basic facts about `firstTT` and `test_candidate` -/

theorem firstTT_some_bound (c : List Char) (p : Nat) (h : firstTT c = some p) :
    p + 2 ≤ c.length := by
  induction c generalizing p with
  | nil => simp [firstTT] at h
  | cons a rest ih =>
    simp only [firstTT] at h
    by_cases hc : a = 'T' ∧ rest.head? = some 'T'
    · rw [if_pos hc] at h
      obtain ⟨-, h2⟩ := hc
      cases h
      cases rest with
      | nil => simp at h2
      | cons b rs => simp
    · rw [if_neg hc, Option.map_eq_some'] at h
      obtain ⟨q, hq, rfl⟩ := h
      have := ih q hq
      simp only [List.length_cons]
      omega

theorem firstTT_none_iff (c : List Char) : firstTT c = none ↔ ¬ (ttL <:+: c) := by
  induction c with
  | nil =>
    simp only [firstTT, true_iff]
    rintro ⟨s, t, hst⟩
    simp [ttL] at hst
  | cons a rest ih =>
    simp only [firstTT]
    by_cases hc : a = 'T' ∧ rest.head? = some 'T'
    · rw [if_pos hc]
      obtain ⟨rfl, h2⟩ := hc
      cases rest with
      | nil => simp at h2
      | cons b rs =>
        simp only [List.head?_cons, Option.some.injEq] at h2
        subst h2
        exact iff_of_false (by simp) (not_not_intro ⟨[], rs, rfl⟩)
    · rw [if_neg hc, Option.map_eq_none']
      rw [ih]
      constructor
      · intro hn hin
        rcases hin with ⟨s, t, hst⟩
        cases s with
        | nil =>
          simp only [List.nil_append] at hst
          have ha : a = 'T' := by
            have := congrArg List.head? hst
            simpa [ttL] using this.symm
          have hr : rest = 'T' :: t := by
            have := congrArg List.tail hst
            simpa [ttL] using this.symm
          exact hc ⟨ha, by rw [hr]; rfl⟩
        | cons x s' => exact hn ⟨s', t, by simpa using congrArg List.tail hst⟩
      · intro hni hin
        rcases hin with ⟨s, t, hst⟩
        exact hni ⟨a :: s, t, by simp [hst]⟩

theorem tc_go_congr : ∀ (f₁ : Nat) (c : List Char) (f₂ : Nat),
    c.length ≤ f₁ → c.length ≤ f₂ →
    test_candidate_go f₁ c = test_candidate_go f₂ c := by
  intro f₁
  induction f₁ with
  | zero =>
    intro c f₂ h1 _
    have hc : c = [] := by
      cases c with
      | nil => rfl
      | cons a t => simp at h1
    subst hc
    cases f₂ with
    | zero => rfl
    | succ g => simp [test_candidate_go, firstTT]
  | succ f ih =>
    intro c f₂ h1 h2
    cases f₂ with
    | zero =>
      have hc : c = [] := by
        cases c with
        | nil => rfl
        | cons a t => simp at h2
      subst hc
      simp [test_candidate_go, firstTT]
    | succ g =>
      simp only [test_candidate_go]
      cases h : firstTT c with
      | none =>
        by_cases h4 : 4 ≤ c.length
        · simp only [if_pos h4]
          by_cases hT : c.head? = some 'T'
          · simp only [if_pos hT]
            exact ih (c.drop 1) g (by simp; omega) (by simp; omega)
          · simp [hT]
        · simp [h4]
      | some p =>
        have hb := firstTT_some_bound c p h
        by_cases h4 : 4 < c.length
        · simp only [if_pos h4]
          rw [ih (c.take (p + 1)) g (by simp; omega) (by simp; omega),
            ih (c.drop (p + 1)) g (by simp; omega) (by simp; omega)]
        · simp [h4]

theorem test_candidate_eq (c : List Char) :
    test_candidate c =
      match firstTT c with
      | none =>
        if 4 ≤ c.length then
          if c.head? = some 'T' then test_candidate (c.drop 1)
          else if all_ggtgg c then [] else [c]
        else []
      | some p =>
        if 4 < c.length then
          test_candidate (c.take (p + 1)) ++ test_candidate (c.drop (p + 1))
        else [] := by
  cases c with
  | nil => rfl
  | cons a rest =>
    show test_candidate_go (rest.length + 1) (a :: rest) = _
    simp only [test_candidate_go]
    cases h : firstTT (a :: rest) with
    | none =>
      by_cases h4 : 4 ≤ (a :: rest).length
      · simp only [if_pos h4]
        by_cases hT : (a :: rest).head? = some 'T'
        · simp only [if_pos hT]
          exact tc_go_congr rest.length ((a :: rest).drop 1) ((a :: rest).drop 1).length
            (by simp) le_rfl
        · simp only [if_neg hT]
      · simp only [if_neg h4]
    | some p =>
      have hb := firstTT_some_bound _ p h
      simp only [List.length_cons] at hb
      by_cases h4 : 4 < (a :: rest).length
      · simp only [if_pos h4]
        rw [tc_go_congr rest.length ((a :: rest).take (p + 1)) ((a :: rest).take (p + 1)).length
            (by simp; omega) le_rfl,
          tc_go_congr rest.length ((a :: rest).drop (p + 1)) ((a :: rest).drop (p + 1)).length
            (by simp) le_rfl]
        rfl
      · simp only [if_neg h4]

theorem tc_inv : ∀ (n : Nat) (s : List Char), s.length ≤ n → ∀ c ∈ test_candidate s,
    firstTT c = none ∧ 4 ≤ c.length ∧ c.head? ≠ some 'T' ∧ all_ggtgg c = false := by
  intro n
  induction n with
  | zero =>
    intro s hs c hc
    have : s = [] := by
      cases s with
      | nil => rfl
      | cons a t => simp at hs
    subst this
    simp [test_candidate, test_candidate_go] at hc
  | succ n ih =>
    intro s hs c hc
    rw [test_candidate_eq] at hc
    cases h : firstTT s with
    | none =>
      simp only [h] at hc
      by_cases h4 : 4 ≤ s.length
      · rw [if_pos h4] at hc
        by_cases hT : s.head? = some 'T'
        · rw [if_pos hT] at hc
          exact ih (s.drop 1) (by simp; omega) c hc
        · rw [if_neg hT] at hc
          by_cases hg : all_ggtgg s = true
          · rw [if_pos hg] at hc
            simp at hc
          · rw [if_neg hg] at hc
            rw [List.mem_singleton] at hc
            subst hc
            exact ⟨h, h4, hT, by simpa using hg⟩
      · rw [if_neg h4] at hc
        simp at hc
    | some p =>
      simp only [h] at hc
      have hb := firstTT_some_bound s p h
      by_cases h4 : 4 < s.length
      · rw [if_pos h4, List.mem_append] at hc
        rcases hc with hc | hc
        · exact ih (s.take (p + 1)) (by simp; omega) c hc
        · exact ih (s.drop (p + 1)) (by simp; omega) c hc
      · rw [if_neg h4] at hc
        simp at hc

theorem infix_take (c : List Char) (n : Nat) : c.take n <:+: c :=
  ⟨[], c.drop n, by simp⟩

theorem infix_drop (c : List Char) (n : Nat) : c.drop n <:+: c :=
  ⟨c.take n, [], by simp⟩

theorem tc_infix_of_mem : ∀ (n : Nat) (s : List Char), s.length ≤ n → ∀ c ∈ test_candidate s,
    c <:+: s := by
  intro n
  induction n with
  | zero =>
    intro s hs c hc
    have : s = [] := by
      cases s with
      | nil => rfl
      | cons a t => simp at hs
    subst this
    simp [test_candidate, test_candidate_go] at hc
  | succ n ih =>
    intro s hs c hc
    rw [test_candidate_eq] at hc
    cases h : firstTT s with
    | none =>
      simp only [h] at hc
      by_cases h4 : 4 ≤ s.length
      · rw [if_pos h4] at hc
        by_cases hT : s.head? = some 'T'
        · rw [if_pos hT] at hc
          exact (ih (s.drop 1) (by simp; omega) c hc).trans (infix_drop s 1)
        · rw [if_neg hT] at hc
          by_cases hg : all_ggtgg s = true
          · rw [if_pos hg] at hc
            simp at hc
          · rw [if_neg hg] at hc
            rw [List.mem_singleton] at hc
            subst hc
            exact List.infix_rfl
      · rw [if_neg h4] at hc
        simp at hc
    | some p =>
      simp only [h] at hc
      have hb := firstTT_some_bound s p h
      by_cases h4 : 4 < s.length
      · rw [if_pos h4, List.mem_append] at hc
        rcases hc with hc | hc
        · exact (ih (s.take (p + 1)) (by simp; omega) c hc).trans (infix_take s (p + 1))
        · exact (ih (s.drop (p + 1)) (by simp; omega) c hc).trans (infix_drop s (p + 1))
      · rw [if_neg h4] at hc
        simp at hc

/-- C1: for every input string, every candidate in the list returned by
`test_candidate` contains no "TT" substring, has length at least 4, does not
start with 'T', and the pure-repeat predicate `all_ggtgg` is false on it. -/
theorem candidate_invariants (s c : List Char) (h : c ∈ test_candidate s) :
    ¬ (ttL <:+: c) ∧ 4 ≤ c.length ∧ c.head? ≠ some 'T' ∧ all_ggtgg c = false := by
  obtain ⟨h1, h2, h3, h4⟩ := tc_inv s.length s le_rfl c h
  exact ⟨(firstTT_none_iff c).mp h1, h2, h3, h4⟩

theorem candidate_invariants_w :
    ((['G', 'G', 'T', 'G', 'T'] : List Char) ∈ test_candidate ['G', 'G', 'T', 'G', 'T']) ∧
      (¬ (ttL <:+: ['G', 'G', 'T', 'G', 'T']) ∧
        4 ≤ (['G', 'G', 'T', 'G', 'T'] : List Char).length ∧
        (['G', 'G', 'T', 'G', 'T'] : List Char).head? ≠ some 'T' ∧
        all_ggtgg ['G', 'G', 'T', 'G', 'T'] = false) :=
  ⟨by decide, candidate_invariants ['G', 'G', 'T', 'G', 'T'] ['G', 'G', 'T', 'G', 'T'] (by decide)⟩

/-- C9: the recursive splitter `test_candidate` terminates because each
recursive call — stripping one leading 'T', or taking the part up to and
including the first 'T' of a "TT" break, or the part after it — is on a
strictly shorter string.  The equations below exhibit exactly those calls
together with the strict length decrease. -/
theorem splitter_calls_shrink (c : List Char) :
    (∀ p, firstTT c = some p → 4 < c.length →
      test_candidate c
          = test_candidate (c.take (p + 1)) ++ test_candidate (c.drop (p + 1)) ∧
        (c.take (p + 1)).length < c.length ∧ (c.drop (p + 1)).length < c.length) ∧
    (firstTT c = none → 4 ≤ c.length → c.head? = some 'T' →
      test_candidate c = test_candidate (c.drop 1) ∧ (c.drop 1).length < c.length) := by
  constructor
  · intro p hp h4
    have hb := firstTT_some_bound c p hp
    refine ⟨?_, by simp; omega, by simp; omega⟩
    rw [test_candidate_eq]
    simp only [hp]
    rw [if_pos h4]
  · intro hn h4 hT
    refine ⟨?_, by simp; omega⟩
    rw [test_candidate_eq]
    simp only [hn]
    rw [if_pos h4, if_pos hT]

theorem splitter_calls_shrink_w :
    (firstTT ['G', 'G', 'T', 'T', 'G', 'G'] = some 2 ∧ 4 < (['G', 'G', 'T', 'T', 'G', 'G'] : List Char).length ∧
      (test_candidate ['G', 'G', 'T', 'T', 'G', 'G']
          = test_candidate (['G', 'G', 'T', 'T', 'G', 'G'].take 3)
            ++ test_candidate (['G', 'G', 'T', 'T', 'G', 'G'].drop 3) ∧
        ((['G', 'G', 'T', 'T', 'G', 'G'] : List Char).take 3).length < (['G', 'G', 'T', 'T', 'G', 'G'] : List Char).length ∧
        ((['G', 'G', 'T', 'T', 'G', 'G'] : List Char).drop 3).length < (['G', 'G', 'T', 'T', 'G', 'G'] : List Char).length)) ∧
    (firstTT ['T', 'G', 'G', 'G', 'T'] = none ∧
      (test_candidate ['T', 'G', 'G', 'G', 'T'] = test_candidate (['T', 'G', 'G', 'G', 'T'].drop 1) ∧
        ((['T', 'G', 'G', 'G', 'T'] : List Char).drop 1).length < (['T', 'G', 'G', 'G', 'T'] : List Char).length)) :=
  ⟨⟨by decide, by decide, (splitter_calls_shrink ['G', 'G', 'T', 'T', 'G', 'G']).1 2 (by decide) (by decide)⟩,
   ⟨by decide, (splitter_calls_shrink ['T', 'G', 'G', 'G', 'T']).2 (by decide) (by decide) (by decide)⟩⟩

/-- C10: a string of length exactly 4 that contains "TT" falls through every
branch of `test_candidate` (the TT-splitting branch requires length strictly
greater than 4) and yields no candidates. -/
theorem length_four_with_tt_yields_nothing (c : List Char)
    (h4 : c.length = 4) (hTT : ttL <:+: c) : test_candidate c = [] := by
  cases h : firstTT c with
  | none => exact absurd hTT ((firstTT_none_iff c).mp h)
  | some p =>
    rw [test_candidate_eq, h]
    simp [h4]

theorem length_four_with_tt_yields_nothing_w :
    (['G', 'T', 'T', 'G'] : List Char).length = 4 ∧ ttL <:+: ['G', 'T', 'T', 'G'] ∧
      test_candidate ['G', 'T', 'T', 'G'] = [] :=
  ⟨by decide, by decide, length_four_with_tt_yields_nothing _ (by decide) (by decide)⟩

/-! ### The match scanner and membership in `find_tg_kmers` -/

theorem findMatchesGo_nil (fuel idx : Nat) : findMatchesGo fuel [] idx = [] := by
  cases fuel <;> rfl

theorem findMatchesGo_spec : ∀ (fuel : Nat) (s : List Char) (idx : Nat),
    ∀ se ∈ findMatchesGo fuel s idx,
      idx ≤ se.1 ∧ se.1 + 4 ≤ se.2 ∧ se.2 ≤ idx + s.length ∧
        ((s.drop (se.1 - idx)).take (se.2 - se.1)).length = se.2 - se.1 ∧
        ((s.drop (se.1 - idx)).take (se.2 - se.1)).head? = some 'G' ∧
        ∀ x ∈ (s.drop (se.1 - idx)).take (se.2 - se.1), x = 'G' ∨ x = 'T' := by
  intro fuel
  induction fuel with
  | zero => intro s idx se hse; simp [findMatchesGo] at hse
  | succ fuel ih =>
    intro s idx se hse
    cases s with
    | nil => simp [findMatchesGo] at hse
    | cons ch rest =>
      have hr : (rest.takeWhile isGT).length ≤ rest.length :=
        ( List.takeWhile_prefix isGT).length_le
      simp only [findMatchesGo] at hse
      by_cases hc : ch = 'G' ∧ 3 ≤ (rest.takeWhile isGT).length
      · rw [if_pos hc] at hse
        obtain ⟨hg, h3⟩ := hc
        rcases List.mem_cons.mp hse with hse | hse
        · subst hse
          have htk : rest.take (rest.takeWhile isGT).length = rest.takeWhile isGT :=
            ((List.prefix_iff_eq_take).mp ( List.takeWhile_prefix isGT)).symm
          have hix : idx + 1 + (rest.takeWhile isGT).length - idx
              = (rest.takeWhile isGT).length + 1 := by omega
          refine ⟨le_rfl, by omega, by simp; omega, ?_, ?_, ?_⟩
          · simp only [Nat.sub_self, List.drop_zero, hix]
            rw [List.take_succ_cons, htk]
            simp
          · simp only [Nat.sub_self, List.drop_zero, hix]
            rw [List.take_succ_cons]
            simp [hg]
          · simp only [Nat.sub_self, List.drop_zero, hix]
            rw [List.take_succ_cons, htk]
            intro x hx
            rcases List.mem_cons.mp hx with hx | hx
            · exact Or.inl (hx.trans hg)
            · have := List.mem_takeWhile_imp hx
              simpa [isGT] using this
        · have hspec := ih ((ch :: rest).drop (1 + (rest.takeWhile isGT).length))
            (idx + 1 + (rest.takeWhile isGT).length) se hse
          obtain ⟨hs1, hs2, hs3, hs4, hs5, hs6⟩ := hspec
          have hdd : (((ch :: rest).drop (1 + (rest.takeWhile isGT).length)).drop
              (se.1 - (idx + 1 + (rest.takeWhile isGT).length)))
              = (ch :: rest).drop (se.1 - idx) := by
            rw [List.drop_drop]
            congr 1
            omega
          rw [hdd] at hs4 hs5 hs6
          have hlen : ((ch :: rest).drop (1 + (rest.takeWhile isGT).length)).length
              = rest.length - (rest.takeWhile isGT).length := by simp; omega
          exact ⟨by omega, hs2, by rw [hlen] at hs3; simp; omega, hs4, hs5, hs6⟩
      · rw [if_neg hc] at hse
        have hspec := ih rest (idx + 1) se hse
        obtain ⟨hs1, hs2, hs3, hs4, hs5, hs6⟩ := hspec
        have hdd : rest.drop (se.1 - (idx + 1)) = (ch :: rest).drop (se.1 - idx) := by
          have : rest.drop (se.1 - (idx + 1)) = ((ch :: rest).drop 1).drop (se.1 - (idx + 1)) := rfl
          rw [this, List.drop_drop]
          congr 1
          omega
        rw [hdd] at hs4 hs5 hs6
        exact ⟨by omega, hs2, by simp; omega, hs4, hs5, hs6⟩

theorem findMatches_spec (w : List Char) :
    ∀ se ∈ findMatches w,
      se.1 + 4 ≤ se.2 ∧ se.2 ≤ w.length ∧
        ((w.drop se.1).take (se.2 - se.1)).length = se.2 - se.1 ∧
        ((w.drop se.1).take (se.2 - se.1)).head? = some 'G' ∧
        ∀ x ∈ (w.drop se.1).take (se.2 - se.1), x = 'G' ∨ x = 'T' := by
  intro se hse
  have h := findMatchesGo_spec w.length w 0 se hse
  simpa using h

theorem mem_kmers_iff (w c : List Char) :
    c ∈ (find_tg_kmers w).1 ↔ ∃ se ∈ findMatches w, c ∈ (processMatch w se).1 := by
  simp [find_tg_kmers]

theorem mem_pos_iff (w : List Char) (q : Nat × Nat) :
    q ∈ (find_tg_kmers w).2 ↔ ∃ se ∈ findMatches w, q ∈ (processMatch w se).2 := by
  simp [find_tg_kmers]

theorem processMatch_fst_mem {w : List Char} {se : Nat × Nat} {c : List Char}
    (h : c ∈ (processMatch w se).1) :
    contains_gt4_gs ((w.drop se.1).take (se.2 - se.1)) = false ∧
      all_ggtgg ((w.drop se.1).take (se.2 - se.1)) = false ∧
      c ∈ test_candidate ((w.drop se.1).take (se.2 - se.1)) := by
  simp only [processMatch] at h
  by_cases hg : contains_gt4_gs ((w.drop se.1).take (se.2 - se.1)) = false ∧
      all_ggtgg ((w.drop se.1).take (se.2 - se.1)) = false
  · rw [if_pos hg] at h
    exact ⟨hg.1, hg.2, (List.mem_filter.mp h).1⟩
  · rw [if_neg hg] at h
    simp at h

theorem processMatch_snd_mem {w : List Char} {se : Nat × Nat} {q : Nat × Nat}
    (h : q ∈ (processMatch w se).2) :
    ∃ k ∈ test_candidate ((w.drop se.1).take (se.2 - se.1)),
      q = posOfKmer se ((w.drop se.1).take (se.2 - se.1)) k := by
  simp only [processMatch] at h
  by_cases hg : contains_gt4_gs ((w.drop se.1).take (se.2 - se.1)) = false ∧
      all_ggtgg ((w.drop se.1).take (se.2 - se.1)) = false
  · rw [if_pos hg] at h
    obtain ⟨k, hk, hq⟩ := List.mem_map.mp h
    exact ⟨k, (List.mem_filter.mp hk).1, hq.symm⟩
  · rw [if_neg hg] at h
    simp at h

theorem mem_pos_end_ge (w : List Char) : ∀ q ∈ (find_tg_kmers w).2, 4 ≤ q.2 := by
  intro q hq
  obtain ⟨se, hse, hmem⟩ := (mem_pos_iff w q).mp hq
  obtain ⟨k, hk, rfl⟩ := processMatch_snd_mem hmem
  have h4 := (tc_inv _ _ le_rfl k hk).2.1
  have hspan := (findMatches_spec w se hse).1
  simp only [posOfKmer]
  by_cases he : se.2 - se.1 = k.length
  · rw [if_pos he]
    omega
  · rw [if_neg he]
    omega

/-! ### The penalty function -/

theorem ggtgg_fold_zero : ∀ (gs : List (List Char)) (a : ℚ),
    gs.foldl (fun acc g => acc + (countGGTGG g : ℚ) * 0) a = a := by
  intro gs
  induction gs with
  | nil => intro a; rfl
  | cons g gs ih => intro a; rw [List.foldl_cons, mul_zero, add_zero]; exact ih a

theorem flank_fold_zero (w : List Char) : ∀ (pos : List (Nat × Nat)) (a : ℚ),
    pos.foldl (fun acc se =>
      if se.2 < w.length then
        if pyIdx w (se.2 : Int) = some 'T' ∧ pyIdx w ((se.2 : Int) - 1) = some 'T' then
          acc + 0
        else acc
      else acc) a = a := by
  intro pos
  induction pos with
  | nil => intro a; rfl
  | cons se pos ih =>
    intro a
    rw [List.foldl_cons]
    have : (if se.2 < w.length then
        if pyIdx w (se.2 : Int) = some 'T' ∧ pyIdx w ((se.2 : Int) - 1) = some 'T' then
          a + 0
        else a
      else a) = a := by split_ifs <;> simp
    rw [this]
    exact ih a

theorem calculate_penalty_zero (gs : List (List Char)) (pos : List (Nat × Nat))
    (seq : List Char) : calculate_penalty gs 0 0 pos seq = 0 := by
  simp only [calculate_penalty]
  rw [ggtgg_fold_zero gs 0]
  exact flank_fold_zero seq pos 0

/-- C5: with both penalty weights zero the net window score is exactly the sum
of the candidate lengths: `calculate_penalty` returns 0 and the score is
`score_groups` of the candidate list. -/
theorem zero_penalty_score (w : List Char) :
    windowScore w 0 0 = (score_groups (find_tg_kmers w).1 : ℚ) ∧
      calculate_penalty (find_tg_kmers w).1 0 0 (find_tg_kmers w).2 w = 0 := by
  refine ⟨?_, calculate_penalty_zero _ _ _⟩
  rw [windowScore, calculate_penalty_zero, sub_zero]

theorem pyIdx_natCast (w : List Char) (i : Nat) : pyIdx w (i : Int) = w[i]? := by
  rw [pyIdx, if_pos (by omega : (0:Int) ≤ (i : Int))]
  simp

theorem pyIdx_natCast_sub_one (w : List Char) (i : Nat) (h : 1 ≤ i) :
    pyIdx w ((i : Int) - 1) = w[i - 1]? := by
  rw [pyIdx, if_pos (by omega : (0:Int) ≤ (i : Int) - 1)]
  congr 1
  omega

theorem flank_fold_count (w : List Char) (tp : ℚ) :
    ∀ (pos : List (Nat × Nat)), (∀ se ∈ pos, 1 ≤ se.2) → ∀ (a : ℚ),
    pos.foldl (fun acc se =>
      if se.2 < w.length then
        if pyIdx w (se.2 : Int) = some 'T' ∧ pyIdx w ((se.2 : Int) - 1) = some 'T' then
          acc + tp
        else acc
      else acc) a = a + (pos.countP (flankTT w) : ℚ) * tp := by
  intro pos
  induction pos with
  | nil => intro _ a; simp
  | cons se pos ih =>
    intro hb a
    have hse : 1 ≤ se.2 := hb se (List.mem_cons_self se pos)
    have hstep : (if se.2 < w.length then
        if pyIdx w (se.2 : Int) = some 'T' ∧ pyIdx w ((se.2 : Int) - 1) = some 'T' then
          a + tp
        else a
      else a) = a + (if flankTT w se then (1:ℚ) else 0) * tp := by
      rw [pyIdx_natCast, pyIdx_natCast_sub_one w se.2 hse]
      simp only [flankTT]
      by_cases h1 : se.2 < w.length
      · rw [if_pos h1]
        by_cases h2 : w[se.2]? = some 'T' ∧ w[se.2 - 1]? = some 'T'
        · rw [if_pos h2]
          simp [h1, h2.1, h2.2]
        · rw [if_neg h2]
          rcases not_and_or.mp h2 with h3 | h3 <;> simp [h3]
      · rw [if_neg h1]
        simp [h1]
    rw [List.foldl_cons, hstep, ih (fun x hx => hb x (List.mem_cons_of_mem se hx))]
    rw [List.countP_cons]
    push_cast
    by_cases hf : flankTT w se <;> simp [hf] <;> ring

/-- C7: the flanking-TT penalty adds `tt_penalty` once per candidate position
`(start, end)` exactly when `end < len(window_seq)`, `window_seq[end] = 'T'`
and `window_seq[end-1] = 'T'`; in particular a candidate whose end coincides
with the window's end contributes no flanking-TT penalty. -/
theorem flanking_tt_characterization (w : List Char) (p tp : ℚ) :
    calculate_penalty (find_tg_kmers w).1 p tp (find_tg_kmers w).2 w
      = (find_tg_kmers w).1.foldl (fun acc g => acc + (countGGTGG g : ℚ) * p) 0
        + ((find_tg_kmers w).2.countP (flankTT w) : ℚ) * tp ∧
    ∀ se ∈ (find_tg_kmers w).2, se.2 = w.length → flankTT w se = false := by
  constructor
  · simp only [calculate_penalty]
    exact flank_fold_count w tp (find_tg_kmers w).2
      (fun se hse => by have := mem_pos_end_ge w se hse; omega) _
  · intro se _ hend
    simp [flankTT, hend]

theorem flanking_tt_characterization_w :
    (calculate_penalty (find_tg_kmers ['G', 'G', 'T', 'G', 'T']).1 1 1
        (find_tg_kmers ['G', 'G', 'T', 'G', 'T']).2 ['G', 'G', 'T', 'G', 'T']
      = (find_tg_kmers ['G', 'G', 'T', 'G', 'T']).1.foldl
          (fun acc g => acc + (countGGTGG g : ℚ) * 1) 0
        + ((find_tg_kmers ['G', 'G', 'T', 'G', 'T']).2.countP
            (flankTT ['G', 'G', 'T', 'G', 'T']) : ℚ) * 1) ∧
    ((0, 5) ∈ (find_tg_kmers ['G', 'G', 'T', 'G', 'T']).2 ∧
      flankTT ['G', 'G', 'T', 'G', 'T'] (0, 5) = false) :=
  ⟨(flanking_tt_characterization ['G', 'G', 'T', 'G', 'T'] 1 1).1,
   by decide,
   (flanking_tt_characterization ['G', 'G', 'T', 'G', 'T'] 1 1).2 (0, 5) (by decide) (by decide)⟩

/-! ### The pure-GGTGG-repeat predicate (claim C4) -/

theorem ggtPow_length (k : Nat) : (ggtPow k).length = 3 * k := by
  induction k with
  | zero => rfl
  | succ k ih => simp [ggtPow, ih]; ring

theorem ggt_split (s : List Char) : ggtPow (ggtCount s) ++ s.drop (3 * ggtCount s) = s := by
  induction s using ggtCount.induct with
  | case1 rest ih =>
    simp only [ggtCount]
    have h3 : 3 * (ggtCount rest + 1) = 3 * ggtCount rest + 3 := by ring
    rw [h3]
    simp only [ggtPow, List.drop_succ_cons]
    simp [ih]
  | case2 s h =>
    have h0 : ggtCount s = 0 := by
      rw [ggtCount.eq_def]
      split
      · rename_i rest
        exact absurd rfl (by intro hh; exact h rest hh)
      · rfl
    simp [h0, ggtPow]

theorem ggtCount_le_length (s : List Char) : 3 * ggtCount s ≤ s.length := by
  have := congrArg List.length (ggt_split s)
  simp only [List.length_append, ggtPow_length, List.length_drop] at this
  omega

theorem ggtCount_pow (k : Nat) : ggtCount (ggtPow k) = k := by
  induction k with
  | zero => rfl
  | succ k ih => simp [ggtPow, ggtCount, ih]

theorem ggtCount_pow_G (k : Nat) : ggtCount (ggtPow k ++ ['G']) = k := by
  induction k with
  | zero => rfl
  | succ k ih => simp [ggtPow, ggtCount, ih]

theorem take_ne_self_of_lt {s : List Char} {n : Nat} (h : n < s.length) :
    s.take n ≠ s := by
  intro heq
  have := congrArg List.length heq
  simp at this
  omega

theorem matchGGTAt_self_iff (s : List Char) :
    matchGGTAt s = some s ↔ isFullGGTRepeat s = true := by
  rw [matchGGTAt, isFullGGTRepeat]
  by_cases h2 : 2 ≤ ggtCount s
  · rw [if_pos h2]
    have hlen3 : 3 * ggtCount s ≤ s.length := ggtCount_le_length s
    have hdlen : (s.drop (3 * ggtCount s)).length = s.length - 3 * ggtCount s := by simp
    cases hr : s.drop (3 * ggtCount s) with
    | nil =>
      rw [hr] at hdlen
      have hl : s.length = 3 * ggtCount s := by
        simp only [List.length_nil] at hdlen
        omega
      simp only [List.head?_nil]
      rw [if_neg (by simp)]
      rw [List.take_of_length_le (by omega)]
      simp [h2]
    | cons c0 r' =>
      rw [hr] at hdlen
      simp only [List.length_cons] at hdlen
      by_cases hg : c0 = 'G'
      · subst hg
        simp only [List.head?_cons]
        rw [if_pos trivial]
        cases r' with
        | nil =>
          have hl : s.length = 3 * ggtCount s + 1 := by simp at hdlen; omega
          rw [List.take_of_length_le (by omega)]
          simp [h2]
        | cons d r'' =>
          have hl : 3 * ggtCount s + 1 < s.length := by simp at hdlen; omega
          refine iff_of_false ?_ ?_
          · intro hcon
            injection hcon with hcon
            exact take_ne_self_of_lt hl hcon
          · simp
      · simp only [List.head?_cons]
        rw [if_neg (by simp [hg])]
        have hl : 3 * ggtCount s < s.length := by omega
        refine iff_of_false ?_ ?_
        · intro hcon
          injection hcon with hcon
          simp only [Nat.add_zero] at hcon
          exact take_ne_self_of_lt hl hcon
        · simp only [Bool.and_eq_true, Bool.or_eq_true, decide_eq_true_eq]
          rintro ⟨-, hcon | hcon⟩
          · exact List.cons_ne_nil _ _ hcon
          · exact hg (by simpa using congrArg List.head? hcon)
  · rw [if_neg h2]
    refine iff_of_false (by simp) (by simp; intro hcon; exact absurd hcon h2)

theorem matchGGTAt_length_le {s m : List Char} (h : matchGGTAt s = some m) :
    m.length ≤ s.length := by
  rw [matchGGTAt] at h
  by_cases h2 : 2 ≤ ggtCount s
  · rw [if_pos h2] at h
    injection h with h
    rw [← h]
    simp
  · rw [if_neg h2] at h
    cases h

theorem ggtggSearch_length_le : ∀ (s m : List Char), ggtggSearch s = some m →
    m.length ≤ s.length := by
  intro s
  induction s with
  | nil => intro m h; simp [ggtggSearch] at h
  | cons a rest ih =>
    intro m h
    simp only [ggtggSearch] at h
    cases hm : matchGGTAt (a :: rest) with
    | some m2 =>
      rw [hm] at h
      injection h with h
      subst h
      exact matchGGTAt_length_le hm
    | none =>
      rw [hm] at h
      have := ih m h
      simp
      omega

theorem ggtggSearch_self_iff (s : List Char) :
    ggtggSearch s = some s ↔ matchGGTAt s = some s := by
  cases s with
  | nil =>
    simp [ggtggSearch, matchGGTAt, ggtCount]
  | cons a rest =>
    simp only [ggtggSearch]
    cases hm : matchGGTAt (a :: rest) with
    | some m => simp
    | none =>
      refine iff_of_false ?_ (by simp)
      intro hcon
      have := ggtggSearch_length_le rest (a :: rest) hcon
      simp at this

theorem isFullGGTRepeat_iff (s : List Char) :
    isFullGGTRepeat s = true ↔
      ∃ k, 2 ≤ k ∧ (s = ggtPow k ∨ s = ggtPow k ++ ['G']) := by
  rw [isFullGGTRepeat]
  constructor
  · intro h
    simp only [Bool.and_eq_true, Bool.or_eq_true, decide_eq_true_eq] at h
    obtain ⟨h2, hr⟩ := h
    refine ⟨ggtCount s, h2, ?_⟩
    have hsplit := ggt_split s
    rcases hr with hr | hr
    · left
      rw [hr] at hsplit
      simpa using hsplit.symm
    · right
      rw [hr] at hsplit
      exact hsplit.symm
  · rintro ⟨k, h2, hs | hs⟩ <;> subst hs
    · rw [ggtCount_pow]
      have : (ggtPow k).drop (3 * k) = [] := by
        rw [List.drop_eq_nil_iff]
        simp [ggtPow_length]
      simp [this, h2]
    · rw [ggtCount_pow_G]
      have h3 : 3 * k = (ggtPow k).length := (ggtPow_length k).symm
      rw [h3, List.drop_left]
      simp [h2]

/-- Counterexample to claim C4: on "GTGGTGG" the program's `all_ggtgg` is true
(the regex `GTGGTGGT?$` matches "GTGGTGG" with the optional T absent), but the
claim's predicate — which reads the optional T as following "GTGGTGGT" — is
false: "GTGGTGG" is none of "GGTGG", "GTGGTGGT", "GTGGTGGTT", nor a full
GGT-repeat. -/
theorem all_ggtgg_claim_cex :
    all_ggtgg gtggtggL = true ∧ claimPureRepeat gtggtggL = false := by
  constructor <;> rfl

/-- C4 (amended): `all_ggtgg seq` is true iff `seq` equals exactly "GGTGG", or
`seq` is "GTGGTGG" optionally followed by one "T" and nothing else, or `seq`
is entirely consumed by the pattern "GGT" repeated two or more times
optionally followed by one trailing "G". -/
theorem all_ggtgg_iff (s : List Char) :
    all_ggtgg s = true ↔
      (s = ggtggL ∨ s = gtggtggL ∨ s = gtggtggL ++ ['T'] ∨
        ∃ k, 2 ≤ k ∧ (s = ggtPow k ∨ s = ggtPow k ++ ['G'])) := by
  rw [all_ggtgg]
  by_cases hc : s = ggtggL ∨ s = gtggtggL ∨ s = gtggtggL ++ ['T']
  · rw [if_pos hc]
    simp only [true_iff]
    tauto
  · rw [if_neg hc]
    constructor
    · intro h
      cases hm : ggtggSearch s with
      | none =>
        simp only [hm] at h
        exact Bool.noConfusion h
      | some m =>
        simp only [hm, decide_eq_true_eq] at h
        rw [h] at hm
        right; right; right
        exact (isFullGGTRepeat_iff s).mp
          ((matchGGTAt_self_iff s).mp ((ggtggSearch_self_iff s).mp hm))
    · intro h
      have hfull : isFullGGTRepeat s = true := by
        rcases h with h | h | h | h
        · exact absurd (Or.inl h) hc
        · exact absurd (Or.inr (Or.inl h)) hc
        · exact absurd (Or.inr (Or.inr h)) hc
        · exact (isFullGGTRepeat_iff s).mpr h
      have hm : ggtggSearch s = some s :=
        (ggtggSearch_self_iff s).mpr ((matchGGTAt_self_iff s).mpr hfull)
      simp only [hm, decide_eq_true_eq]

/-! ### Window aggregation (claims C2 and C3) -/

theorem pyRound_le_floor_add_one (q : ℚ) : pyRound q ≤ Int.floor q + 1 := by
  rw [pyRound]
  split_ifs <;> omega

theorem floor_le_pyRound (q : ℚ) : Int.floor q ≤ pyRound q := by
  rw [pyRound]
  split_ifs <;> omega

theorem calc_max_eq_none_of_nonpos (seq : List Char) (p tp : ℚ) (W S : Nat)
    (h : pyRound (((seq.length : ℚ) - W) / S + 1) ≤ 0) :
    calc_max_score_over_windows seq p tp W S = none := by
  simp only [calc_max_score_over_windows]
  have h0 : (pyRound (((seq.length : ℚ) - W) / S + 1)).toNat = 0 := by omega
  rw [h0]
  rfl

/-- Counterexample to claim C3: for the length-4 sequence "GGTT" with
window 100 and step 1, `round((4-100)/1 + 1) = -95`, the window loop is empty
and max mode returns NaN (`none`) — not the score of the single truncated
window, which is 0. -/
theorem max_mode_claim_cex :
    calc_max_score_over_windows ['G', 'G', 'T', 'T'] 0 0 100 1 = none ∧
      windowScore ['G', 'G', 'T', 'T'] 0 0 = 0 ∧
      calc_max_score_over_windows ['G', 'G', 'T', 'T'] 0 0 100 1
        ≠ some (windowScore ['G', 'G', 'T', 'T'] 0 0) := by
  have hnone : calc_max_score_over_windows ['G', 'G', 'T', 'T'] 0 0 100 1 = none := by
    apply calc_max_eq_none_of_nonpos
    have hq : (((['G', 'G', 'T', 'T'] : List Char).length : ℚ) - (100 : ℕ)) / (1 : ℕ) + 1 < 0 := by
      norm_num
    have hf : Int.floor ((((['G', 'G', 'T', 'T'] : List Char).length : ℚ) - (100 : ℕ)) / (1 : ℕ) + 1) < 0 :=
      Int.floor_lt.mpr (by exact_mod_cast hq)
    have := pyRound_le_floor_add_one
      ((((['G', 'G', 'T', 'T'] : List Char).length : ℚ) - (100 : ℕ)) / (1 : ℕ) + 1)
    omega
  have hscore : windowScore ['G', 'G', 'T', 'T'] 0 0 = 0 := by
    have h1 : (find_tg_kmers ['G', 'G', 'T', 'T']).1 = [] := by decide
    rw [windowScore, calculate_penalty_zero, h1]
    simp [score_groups]
  exact ⟨hnone, hscore, by rw [hnone]; exact fun hcon => Option.noConfusion hcon⟩

/-- C3 (amended): in max mode, for a sequence shorter than the window, if the
window count `round((L-W)/S + 1)` is at least 1 then exactly one (truncated)
window — the whole sequence — is scored and its score returned; otherwise the
loop is empty and NaN (`none`) is returned. -/
theorem max_mode_short_seq (seq : List Char) (p tp : ℚ) (W S : Nat)
    (hL : seq.length < W) (hS : 0 < S) :
    calc_max_score_over_windows seq p tp W S
      = if 1 ≤ pyRound (((seq.length : ℚ) - W) / S + 1)
        then some (windowScore seq p tp) else none := by
  have hq : ((seq.length : ℚ) - W) / S + 1 < 1 := by
    have hnum : ((seq.length : ℚ) - W) < 0 := by
      have hcast : (seq.length : ℚ) < W := by exact_mod_cast hL
      linarith
    have hSpos : (0 : ℚ) < S := by exact_mod_cast hS
    have := div_neg_of_neg_of_pos hnum hSpos
    linarith
  have hfl : Int.floor (((seq.length : ℚ) - W) / S + 1) ≤ 0 := by
    have := Int.floor_lt.mpr (by exact_mod_cast hq :
      ((seq.length : ℚ) - W) / S + 1 < ((1 : ℤ) : ℚ))
    omega
  have hub : pyRound (((seq.length : ℚ) - W) / S + 1) ≤ 1 := by
    have := pyRound_le_floor_add_one (((seq.length : ℚ) - W) / S + 1)
    omega
  by_cases h1 : 1 ≤ pyRound (((seq.length : ℚ) - W) / S + 1)
  · rw [if_pos h1]
    have hN1 : pyRound (((seq.length : ℚ) - W) / S + 1) = 1 := le_antisymm hub h1
    simp only [calc_max_score_over_windows, hN1]
    show (List.foldl _ none (List.map _ (List.range (Int.toNat 1)))) = _
    rw [show Int.toNat 1 = 1 from rfl]
    rw [show List.range 1 = [0] from rfl]
    simp only [List.map_cons, List.map_nil, Nat.zero_mul, List.foldl_cons, List.foldl_nil]
    rw [List.drop_zero, List.take_of_length_le (le_of_lt hL)]
  · rw [if_neg h1]
    exact calc_max_eq_none_of_nonpos seq p tp W S (by omega)

theorem max_mode_short_seq_w :
    (['G', 'G', 'T'] : List Char).length < 4 ∧ 0 < 8 ∧
      calc_max_score_over_windows ['G', 'G', 'T'] 0 0 4 8
        = if 1 ≤ pyRound ((((['G', 'G', 'T'] : List Char).length : ℚ) - (4 : ℕ)) / (8 : ℕ) + 1)
          then some (windowScore ['G', 'G', 'T'] 0 0) else none :=
  ⟨by decide, by decide, max_mode_short_seq ['G', 'G', 'T'] 0 0 4 8 (by decide) (by decide)⟩

/-- Counterexample to claim C2: (a) for a length-1 sequence with window 3 and
step 1, signal mode produces 0 windows while `ceil((L-W)/S + 1) = -1`; (b) for
a length-10 sequence with window 1 and step 100, the second (empty) window is
emitted with end coordinate `start + 100`, which exceeds `start + L = 10`. -/
theorem signal_windows_claim_cex :
    ((calc_score_over_windows ['G'] cName 0 0 0 3 1 plusStrand).length = 0 ∧
      Int.ceil ((((['G'] : List Char).length : ℚ) - (3 : ℕ)) / (1 : ℕ) + 1) = -1) ∧
    ((calc_score_over_windows ['G', 'G', 'G', 'G', 'G', 'G', 'G', 'G', 'G', 'G'] cName 0 0 0 1 100
        plusStrand).map (fun e => e.2.2.1) = [1, 100] ∧
      ¬ ((100 : Int) ≤ 0 + ((['G', 'G', 'G', 'G', 'G', 'G', 'G', 'G', 'G', 'G'] : List Char).length : Int))) := by
  have hc1 : Int.ceil ((((['G'] : List Char).length : ℚ) - (3 : ℕ)) / (1 : ℕ) + 1) = -1 := by
    rw [Int.ceil_eq_iff]
    constructor <;> norm_num
  have hc2 : Int.ceil ((((['G', 'G', 'G', 'G', 'G', 'G', 'G', 'G', 'G', 'G'] : List Char).length : ℚ)
      - (1 : ℕ)) / (100 : ℕ) + 1) = 2 := by
    rw [Int.ceil_eq_iff]
    constructor <;> norm_num
  refine ⟨⟨?_, hc1⟩, ?_, by norm_num⟩
  · simp only [calc_score_over_windows]
    rw [hc1]
    rfl
  · simp only [calc_score_over_windows]
    rw [hc2]
    rfl

/-- C2 (amended): in signal mode with window `W > 0` and step `S > 0`, the
number of scored windows is `max 0 (ceil((L-W)/S + 1))` (i.e. the `Int.toNat`
clamp of the ceiling, which can be negative or zero when `L < W`); and
whenever additionally `S ≤ W`, every window's end coordinate on the '+' strand
is at most `start + L`. -/
theorem signal_windows (seq : List Char) (chrom : String) (start : Int) (p tp : ℚ)
    (W S : Nat) (hW : 0 < W) (hS : 0 < S) :
    (calc_score_over_windows seq chrom start p tp W S plusStrand).length
      = (Int.ceil (((seq.length : ℚ) - W) / S + 1)).toNat ∧
    (S ≤ W →
      (calc_score_over_windows seq chrom start p tp W S plusStrand).all
        (fun e => decide (e.2.2.1 ≤ start + seq.length)) = true) := by
  constructor
  · simp [calc_score_over_windows]
  · intro hSW
    rw [List.all_eq_true]
    intro e he
    simp only [calc_score_over_windows, List.mem_map] at he
    obtain ⟨i, hi, rfl⟩ := he
    obtain ⟨k, hk, rfl⟩ := hi
    rw [List.mem_range] at hk
    have hkc : (k : Int) < Int.ceil (((seq.length : ℚ) - W) / S + 1) := Int.lt_toNat.mp hk
    have hceil1 : Int.ceil (((seq.length : ℚ) - W) / S + 1)
        = Int.ceil (((seq.length : ℚ) - W) / S) + 1 :=
      Int.ceil_add_one (((seq.length : ℚ) - W) / S)
    have hk2 : (k : Int) ≤ Int.ceil (((seq.length : ℚ) - W) / S) := by omega
    have hSpos : (0 : ℚ) < S := by exact_mod_cast hS
    have hkS : k * S < seq.length := by
      have h1 : ((Int.ceil (((seq.length : ℚ) - W) / S) : ℚ)) < ((seq.length : ℚ) - W) / S + 1 :=
        Int.ceil_lt_add_one _
      have h2 : ((k : ℚ)) ≤ (Int.ceil (((seq.length : ℚ) - W) / S) : ℚ) := by
        exact_mod_cast hk2
      have h3 : (k : ℚ) * S < (((seq.length : ℚ) - W) / S + 1) * S :=
        mul_lt_mul_of_pos_right (lt_of_le_of_lt h2 h1) hSpos
      have h4 : (((seq.length : ℚ) - W) / S + 1) * S = (seq.length : ℚ) - W + S := by
        field_simp
      have h5 : (S : ℚ) ≤ (W : ℚ) := by exact_mod_cast hSW
      have h6 : (k : ℚ) * S < (seq.length : ℚ) := by
        rw [h4] at h3
        linarith
      exact_mod_cast h6
    have hlen : ((seq.drop (k * S)).take W).length ≤ seq.length - k * S := by
      simp only [List.length_take, List.length_drop]
      omega
    simp only [decide_eq_true_eq]
    push_cast
    omega

theorem signal_windows_w :
    0 < 4 ∧ 0 < 2 ∧
      (calc_score_over_windows ['G', 'G', 'T', 'T'] cName 0 0 0 4 2 plusStrand).length
        = (Int.ceil ((((['G', 'G', 'T', 'T'] : List Char).length : ℚ) - (4 : ℕ)) / (2 : ℕ) + 1)).toNat ∧
      (calc_score_over_windows ['G', 'G', 'T', 'T'] cName 0 0 0 4 2 plusStrand).all
        (fun e => decide (e.2.2.1 ≤ 0 + (['G', 'G', 'T', 'T'] : List Char).length)) = true :=
  ⟨by decide, by decide,
   (signal_windows ['G', 'G', 'T', 'T'] cName 0 0 0 4 2 (by decide) (by decide)).1,
   (signal_windows ['G', 'G', 'T', 'T'] cName 0 0 0 4 2 (by decide) (by decide)).2 (by decide)⟩

/-! ### Occurrence search and position/text consistency (claims C8 and C6) -/

theorem firstOccurIdx_isSome {k s : List Char} (h : k <:+: s) :
    (firstOccurIdx k s).isSome = true := by
  induction s with
  | nil =>
    have hk : k = [] := by simpa using List.infix_nil.mp h
    subst hk
    rfl
  | cons a rest ih =>
    simp only [firstOccurIdx]
    by_cases hp : k.isPrefixOf (a :: rest)
    · simp [hp]
    · rw [if_neg hp]
      have hres : k <:+: rest := by
        rcases List.infix_cons_iff.mp h with hpre | hres
        · exact absurd (( List.isPrefixOf_iff_prefix).mpr hpre) hp
        · exact hres
      simpa using ih hres

theorem firstOccurIdx_spec : ∀ (s k : List Char) (i : Nat),
    firstOccurIdx k s = some i → k <+: s.drop i := by
  intro s
  induction s with
  | nil =>
    intro k i h
    simp only [firstOccurIdx] at h
    by_cases hp : k.isPrefixOf ([] : List Char)
    · rw [if_pos hp] at h
      injection h with h
      subst h
      simpa using ( List.isPrefixOf_iff_prefix).mp hp
    · rw [if_neg hp] at h
      cases h
  | cons a rest ih =>
    intro k i h
    simp only [firstOccurIdx] at h
    by_cases hp : k.isPrefixOf (a :: rest)
    · rw [if_pos hp] at h
      injection h with h
      subst h
      simpa using ( List.isPrefixOf_iff_prefix).mp hp
    · rw [if_neg hp, Option.map_eq_some'] at h
      obtain ⟨j, hj, rfl⟩ := h
      exact ih k j hj

theorem firstOccurIdx_isSome_iff (k s : List Char) :
    (firstOccurIdx k s).isSome = true ↔ k <:+: s := by
  constructor
  · intro h
    obtain ⟨i, hi⟩ := Option.isSome_iff_exists.mp h
    exact ((firstOccurIdx_spec s k i hi).isInfix).trans (infix_drop s i)
  · exact firstOccurIdx_isSome

theorem contains_gt4_gs_mono {c sub : List Char} (hinf : c <:+: sub)
    (h : contains_gt4_gs sub = false) : contains_gt4_gs c = false := by
  rw [contains_gt4_gs] at h ⊢
  rw [Bool.eq_false_iff] at h ⊢
  intro hcon
  exact h ((firstOccurIdx_isSome_iff ggggL sub).mpr
    (((firstOccurIdx_isSome_iff ggggL c).mp hcon).trans hinf))

theorem take_pre (l : List Char) (n : Nat) : l.take n <+: l :=
  ⟨l.drop n, List.take_append_drop n l⟩

theorem zip_map_self (f : List Char → Nat × Nat) :
    ∀ (l : List (List Char)), l.zip (l.map f) = l.map (fun a => (a, f a)) := by
  intro l
  induction l with
  | nil => rfl
  | cons a t ih => simp [ih]

theorem processMatch_length (w : List Char) (se : Nat × Nat) :
    (processMatch w se).1.length = (processMatch w se).2.length := by
  simp only [processMatch]
  split_ifs <;> simp

theorem flatMap_length_eq (f : Nat × Nat → List (List Char)) (g : Nat × Nat → List (Nat × Nat))
    (h : ∀ a, (f a).length = (g a).length) :
    ∀ ms : List (Nat × Nat), (ms.flatMap f).length = (ms.flatMap g).length := by
  intro ms
  induction ms with
  | nil => rfl
  | cons a t ih => simp [h a, ih]

theorem zip_flatMap (f : Nat × Nat → List (List Char)) (g : Nat × Nat → List (Nat × Nat))
    (h : ∀ a, (f a).length = (g a).length) :
    ∀ ms : List (Nat × Nat),
      (ms.flatMap f).zip (ms.flatMap g) = ms.flatMap (fun a => (f a).zip (g a)) := by
  intro ms
  induction ms with
  | nil => rfl
  | cons a t ih =>
    simp only [List.flatMap_cons]
    rw [List.zip_append (h a), ih]

theorem posOfKmer_spec (w : List Char) (se : Nat × Nat) (hse : se ∈ findMatches w)
    (k : List Char) (hk : k ∈ test_candidate ((w.drop se.1).take (se.2 - se.1))) :
    (w.drop (posOfKmer se ((w.drop se.1).take (se.2 - se.1)) k).1).take
        ((posOfKmer se ((w.drop se.1).take (se.2 - se.1)) k).2
          - (posOfKmer se ((w.drop se.1).take (se.2 - se.1)) k).1) = k := by
  obtain ⟨hspan4, hspanle, hlen, hhead, hGT⟩ := findMatches_spec w se hse
  have hinf : k <:+: (w.drop se.1).take (se.2 - se.1) :=
    tc_infix_of_mem ((w.drop se.1).take (se.2 - se.1)).length _ le_rfl k hk
  rw [posOfKmer]
  by_cases he : se.2 - se.1 = k.length
  · rw [if_pos he]
    exact ( List.IsInfix.eq_of_length hinf (by omega)).symm
  · rw [if_neg he]
    have hsome := firstOccurIdx_isSome hinf
    obtain ⟨off, hoff⟩ := Option.isSome_iff_exists.mp hsome
    rw [hoff]
    simp only [Option.getD_some]
    have hpre : k <+: ((w.drop se.1).take (se.2 - se.1)).drop off :=
      firstOccurIdx_spec _ k off hoff
    have harith : se.1 + off + k.length - (se.1 + off) = k.length := by omega
    rw [harith]
    have hdd : w.drop (se.1 + off) = (w.drop se.1).drop off := by
      rw [List.drop_drop]
    rw [hdd]
    have hpre2 : k <+: (w.drop se.1).drop off := by
      rw [List.drop_take] at hpre
      exact hpre.trans (take_pre _ _)
    have htake := List.prefix_iff_eq_take.mp hpre2
    exact htake.symm

/-- C8: the candidate and position lists of `find_tg_kmers` have equal length,
and every candidate paired (by index) with its span `(s, e)` satisfies
`w[s:e] = k` — the recorded span always spells out the candidate's text, even
when `s` is the offset of an earlier duplicate occurrence of `k` inside the
regex match. -/
theorem kmers_positions_consistent (w : List Char) :
    (find_tg_kmers w).1.length = (find_tg_kmers w).2.length ∧
    ∀ ke ∈ (find_tg_kmers w).1.zip (find_tg_kmers w).2,
      (w.drop ke.2.1).take (ke.2.2 - ke.2.1) = ke.1 := by
  constructor
  · exact flatMap_length_eq _ _ (processMatch_length w) (findMatches w)
  · intro ke hke
    simp only [find_tg_kmers] at hke
    rw [zip_flatMap _ _ (processMatch_length w)] at hke
    obtain ⟨se, hse, hke⟩ := List.mem_flatMap.mp hke
    simp only [processMatch] at hke
    by_cases hg : contains_gt4_gs ((w.drop se.1).take (se.2 - se.1)) = false ∧
        all_ggtgg ((w.drop se.1).take (se.2 - se.1)) = false
    · rw [if_pos hg] at hke
      rw [zip_map_self] at hke
      obtain ⟨k, hkmem, hkeq⟩ := List.mem_map.mp hke
      have hkc : k ∈ test_candidate ((w.drop se.1).take (se.2 - se.1)) :=
        (List.mem_filter.mp hkmem).1
      rw [← hkeq]
      exact posOfKmer_spec w se hse k hkc
    · rw [if_neg hg] at hke
      simp at hke

theorem kmers_positions_consistent_w :
    ((find_tg_kmers ['G', 'G', 'T', 'G', 'T']).1.length
        = (find_tg_kmers ['G', 'G', 'T', 'G', 'T']).2.length) ∧
      ((['G', 'G', 'T', 'G', 'T'], ((0 : Nat), (5 : Nat)))
        ∈ (find_tg_kmers ['G', 'G', 'T', 'G', 'T']).1.zip
            (find_tg_kmers ['G', 'G', 'T', 'G', 'T']).2) ∧
      ((['G', 'G', 'T', 'G', 'T'] : List Char).drop 0).take (5 - 0) = ['G', 'G', 'T', 'G', 'T'] :=
  ⟨(kmers_positions_consistent ['G', 'G', 'T', 'G', 'T']).1, by decide,
   (kmers_positions_consistent ['G', 'G', 'T', 'G', 'T']).2
     (['G', 'G', 'T', 'G', 'T'], (0, 5)) (by decide)⟩

theorem takeWhile_eq_self_of_GT : ∀ (l : List Char), (∀ x ∈ l, isGT x = true) →
    l.takeWhile isGT = l := by
  intro l
  induction l with
  | nil => intro _; rfl
  | cons a t ih =>
    intro h
    rw [List.takeWhile_cons, if_pos (h a (List.mem_cons_self a t))]
    rw [ih (fun x hx => h x (List.mem_cons_of_mem a hx))]

theorem findMatches_full (c' : List Char) (hGT : ∀ x ∈ c', isGT x = true)
    (h3 : 3 ≤ c'.length) : findMatches ('G' :: c') = [(0, ('G' :: c').length)] := by
  show findMatchesGo (c'.length + 1) ('G' :: c') 0 = _
  simp only [findMatchesGo]
  rw [takeWhile_eq_self_of_GT c' hGT]
  rw [if_pos ⟨trivial, h3⟩]
  have hdrop : ('G' :: c').drop (1 + c'.length) = [] := by
    rw [List.drop_eq_nil_iff]
    simp
    omega
  rw [hdrop, findMatchesGo_nil]
  simp [Nat.add_comm]

theorem kmers_candidate_props (w c : List Char) (h : c ∈ (find_tg_kmers w).1) :
    c.head? = some 'G' ∧ 4 ≤ c.length ∧ firstTT c = none ∧ all_ggtgg c = false ∧
      contains_gt4_gs c = false ∧ ∀ x ∈ c, x = 'G' ∨ x = 'T' := by
  obtain ⟨se, hse, hc⟩ := (mem_kmers_iff w c).mp h
  obtain ⟨hg4, hgg, htc⟩ := processMatch_fst_mem hc
  obtain ⟨hTT, h4, hheadT, hallg⟩ := tc_inv _ _ le_rfl c htc
  have hinf : c <:+: (w.drop se.1).take (se.2 - se.1) := tc_infix_of_mem _ _ le_rfl c htc
  obtain ⟨-, -, -, -, hGT⟩ := findMatches_spec w se hse
  have hGTc : ∀ x ∈ c, x = 'G' ∨ x = 'T' := fun x hx => hGT x (hinf.subset hx)
  have hne : c ≠ [] := by
    intro hnil
    rw [hnil] at h4
    simp at h4
  obtain ⟨c0, c', rfl⟩ := List.exists_cons_of_ne_nil hne
  have hc0 : c0 = 'G' := by
    rcases hGTc c0 (List.mem_cons_self c0 c') with hx | hx
    · exact hx
    · exact absurd (by rw [hx]; rfl) hheadT
  subst hc0
  exact ⟨rfl, h4, hTT, hallg, contains_gt4_gs_mono hinf hg4, hGTc⟩

/-- C6: acceptance is idempotent — for every candidate `c` returned by the
motif extractor `find_tg_kmers` on any window, running the extractor on `c`
itself yields exactly the single candidate `c` with span `(0, |c|)`, and the
splitter `test_candidate` applied to `c` returns `[c]`. -/
theorem extract_idempotent (w c : List Char) (h : c ∈ (find_tg_kmers w).1) :
    find_tg_kmers c = ([c], [(0, c.length)]) ∧ test_candidate c = [c] := by
  obtain ⟨hhead, h4, hTT, hgg, hg4, hGT⟩ := kmers_candidate_props w c h
  have hne : c ≠ [] := by
    intro hnil
    rw [hnil] at h4
    simp at h4
  obtain ⟨c0, c', rfl⟩ := List.exists_cons_of_ne_nil hne
  have hc0 : c0 = 'G' := by
    simp only [List.head?_cons, Option.some.injEq] at hhead
    exact hhead
  subst hc0
  have htc : test_candidate ('G' :: c') = ['G' :: c'] := by
    rw [test_candidate_eq]
    simp only [hTT]
    rw [if_pos h4, if_neg (by simp), hgg]
    simp
  have hfm : findMatches ('G' :: c') = [(0, ('G' :: c').length)] :=
    findMatches_full c'
      (fun x hx => by
        rcases hGT x (List.mem_cons_of_mem 'G' hx) with hx2 | hx2 <;> simp [isGT, hx2])
      (by simp only [List.length_cons] at h4 ⊢; omega)
  refine ⟨?_, htc⟩
  simp only [find_tg_kmers, hfm, List.flatMap_cons, List.flatMap_nil, List.append_nil]
  simp only [processMatch]
  have hsub : (('G' :: c').drop (0, ('G' :: c').length).1).take
      ((0, ('G' :: c').length).2 - (0, ('G' :: c').length).1) = 'G' :: c' := by
    simp
  rw [hsub]
  rw [if_pos ⟨hg4, hgg⟩]
  rw [htc]
  have hfilter : (['G' :: c'] : List (List Char)).filter (fun k => !k.isEmpty) = ['G' :: c'] := by
    simp
  rw [hfilter]
  simp [posOfKmer]

theorem extract_idempotent_w :
    ((['G', 'G', 'T', 'G', 'T'] : List Char) ∈ (find_tg_kmers ['G', 'G', 'T', 'G', 'T']).1) ∧
      (find_tg_kmers ['G', 'G', 'T', 'G', 'T']
          = ([['G', 'G', 'T', 'G', 'T']], [(0, (['G', 'G', 'T', 'G', 'T'] : List Char).length)]) ∧
        test_candidate ['G', 'G', 'T', 'G', 'T'] = [['G', 'G', 'T', 'G', 'T']]) :=
  ⟨by decide,
   extract_idempotent ['G', 'G', 'T', 'G', 'T'] ['G', 'G', 'T', 'G', 'T'] (by decide)⟩
